import Mathlib

/-!
Shallow embedding of the `msg_noise` crate (`src/lib.rs`): the seed-derivation
function `hash_combine`, the `NoiseSource` factory, and the `Noise` generator.

Modelling conventions:
* `u32` values are `Nat`s reduced `% 2 ^ 32` at the operations where the Rust
  code wraps (`wrapping_mul`, `wrapping_add`); `^^^` is bitwise XOR and `>>>`
  the logical right shift, exactly as on unsigned 32-bit integers.
* `f64` arithmetic on finite values is modelled exactly over `ℚ`.  The only
  place the crate can leave the finite range is the final division of
  `get_fractal` (`value / max_value`), so that division returns a value in
  `F64`, a three-constructor type with NaN, signed infinities and finite
  rationals, with IEEE-754 propagation rules for the operations the crate
  applies downstream of the division.
* The coherent-noise primitive (`ScalePoint::new(Perlin::new(seed))` from the
  `noise` crate, whose default point scale is 1 so it evaluates `Perlin` at the
  given point unchanged) is out of scope per the spec; it is abstracted as a
  function parameter `P : Prim2` from the seed and the two coordinates to the
  sampled value.  `Noise`'s `generator` field is therefore represented by the
  seed that built it.
-/

/-- The 2D coherent-noise primitive, abstracted: seed, x, y ↦ sample. -/
abbrev Prim2 : Type := Nat → ℚ → ℚ → ℚ

/-- `hash_combine` from `src/lib.rs` lines 170-177:
`h = a; h ^= b; h = h.wrapping_mul(0x517c_c1b7); h ^= h >> 16; h`. -/
def hash_combine (a b : Nat) : Nat :=
  let h := a ^^^ b
  let h2 := h * 0x517cc1b7 % 2 ^ 32
  h2 ^^^ (h2 >>> 16)

/-- Modelled from the spec: the reference mixing algorithm of spec §4.1,
transcribed line by line: `h = a`; `h = h xor b`; `h = h * 0x517CC1B7`
(32-bit unsigned multiplication, wraparound); `h = h xor (h
logical-right-shift 16)`; `return h`. -/
def hash_combine_ref (a b : Nat) : Nat :=
  let h0 := a
  let h1 := h0 ^^^ b
  let h2 := h1 * 0x517CC1B7 % 2 ^ 32
  let h3 := h2 ^^^ (h2 >>> 16)
  h3

/-- `const DEFAULT_NOISE_SCALE: f64 = 0.008;` from `src/lib.rs` line 40. -/
def DEFAULT_NOISE_SCALE : ℚ := 0.008

/-- `struct NoiseSource { seed: u32 }` from `src/lib.rs`. -/
structure NoiseSource where
  seed : Nat
deriving DecidableEq

/-- `NoiseSource::new`: stores the seed verbatim. -/
def NoiseSource.new (seed : Nat) : NoiseSource :=
  { seed := seed }

/-- `NoiseSource::reseed`: in-place mutation `self.seed = seed`, modelled by
returning the updated record. -/
def NoiseSource.reseed (s : NoiseSource) (seed : Nat) : NoiseSource :=
  { s with seed := seed }

/-- `struct Noise` from `src/lib.rs`: the `generator: ScalePoint<Perlin>`
field is determined by the seed that built it (see the header comment), so it
is represented by that seed. -/
structure Noise where
  seed : Nat
  scale : ℚ
  offset : ℚ
  range_min : ℚ
  range_max : ℚ
deriving DecidableEq

/-- `Noise::new`: primitive seeded with the exact seed given, default shaping
parameters. -/
def Noise.new (seed : Nat) : Noise :=
  { seed := seed
    scale := DEFAULT_NOISE_SCALE
    offset := 0
    range_min := 0
    range_max := 1 }

/-- `Noise::from_base`: `base_seed.wrapping_add(key)`, then `Noise::new`. -/
def Noise.from_base (base_seed key : Nat) : Noise :=
  Noise.new ((base_seed + key) % 2 ^ 32)

/-- `NoiseSource::create`: derived seed `hash_combine(self.seed, key)`. -/
def NoiseSource.create (s : NoiseSource) (key : Nat) : Noise :=
  Noise.new (hash_combine s.seed key)

/-- `NoiseSource::create_salted`: `combined = hash_combine(key, salt)`,
`derived = hash_combine(self.seed, combined)`. -/
def NoiseSource.create_salted (s : NoiseSource) (key salt : Nat) : Noise :=
  Noise.new (hash_combine s.seed (hash_combine key salt))

/-- `Noise::with_scale`. -/
def Noise.with_scale (n : Noise) (scale : ℚ) : Noise :=
  { n with scale := scale }

/-- `Noise::with_offset`. -/
def Noise.with_offset (n : Noise) (offset : ℚ) : Noise :=
  { n with offset := offset }

/-- `Noise::with_range`. -/
def Noise.with_range (n : Noise) (min max : ℚ) : Noise :=
  { n with range_min := min, range_max := max }

/-- `Noise::get_raw`: primitive evaluated at
`((x + offset) * scale, (y + offset) * scale)`. -/
def Noise.get_raw (n : Noise) (P : Prim2) (x y : ℚ) : ℚ :=
  P n.seed ((x + n.offset) * n.scale) ((y + n.offset) * n.scale)

/-- `Noise::get_absolute`: `get_raw(x, y).abs()`. -/
def Noise.get_absolute (n : Noise) (P : Prim2) (x y : ℚ) : ℚ :=
  |n.get_raw P x y|

/-- `Noise::get_normalized`: `(get_raw(x, y) + 1.0) * 0.5`. -/
def Noise.get_normalized (n : Noise) (P : Prim2) (x y : ℚ) : ℚ :=
  (n.get_raw P x y + 1) * 0.5

/-- IEEE-754 style value for the results that flow out of `get_fractal`'s
division: NaN, a signed infinity (`true` = positive), or a finite value
(modelled exactly as a rational). -/
inductive F64 where
  | nan : F64
  | inf : Bool → F64
  | fin : ℚ → F64
deriving DecidableEq

/-- IEEE-754 addition on `F64` (finite addition taken exact): NaN propagates,
opposite infinities give NaN, an infinity absorbs finite addends. -/
def F64.add : F64 → F64 → F64
  | F64.nan, _ => F64.nan
  | _, F64.nan => F64.nan
  | F64.inf s, F64.inf t => if s = t then F64.inf s else F64.nan
  | F64.inf s, F64.fin _ => F64.inf s
  | F64.fin _, F64.inf t => F64.inf t
  | F64.fin a, F64.fin b => F64.fin (a + b)

/-- IEEE-754 multiplication on `F64` (finite multiplication taken exact): NaN
propagates, infinity times zero is NaN, otherwise signs combine. -/
def F64.mul : F64 → F64 → F64
  | F64.nan, _ => F64.nan
  | _, F64.nan => F64.nan
  | F64.inf s, F64.inf t => F64.inf (s == t)
  | F64.inf s, F64.fin q => if q = 0 then F64.nan else F64.inf (s == decide (0 < q))
  | F64.fin q, F64.inf t => if q = 0 then F64.nan else F64.inf (t == decide (0 < q))
  | F64.fin a, F64.fin b => F64.fin (a * b)

instance : Add F64 := ⟨F64.add⟩

instance : Mul F64 := ⟨F64.mul⟩

/-- IEEE-754 division of two finite values: `0 / 0` is NaN, `a / 0` with
`a ≠ 0` is a signed infinity, otherwise exact. -/
def F64.fdiv (a b : ℚ) : F64 :=
  if b = 0 then (if a = 0 then F64.nan else F64.inf (decide (0 < a))) else F64.fin (a / b)

/-- Whether an `F64` is a finite value inside `[lo, hi]` (NaN and the
infinities are not). -/
def F64.inRange (lo hi : ℚ) : F64 → Bool
  | F64.fin q => decide (lo ≤ q) && decide (q ≤ hi)
  | _ => false

/-- The `for _ in 0..octaves` loop of `Noise::get_fractal`, one iteration per
`Nat.succ`: `value += get_raw(x * frequency, y * frequency) * amplitude;
max_value += amplitude; amplitude *= persistence; frequency *= lacunarity`.
Returns the final `(value, max_value)`. -/
def Noise.fractal_loop (n : Noise) (P : Prim2) (x y persistence lacunarity : ℚ) :
    Nat → ℚ → ℚ → ℚ → ℚ → ℚ × ℚ
  | 0, value, _amplitude, _frequency, max_value => (value, max_value)
  | k + 1, value, amplitude, frequency, max_value =>
      Noise.fractal_loop n P x y persistence lacunarity k
        (value + n.get_raw P (x * frequency) (y * frequency) * amplitude)
        (amplitude * persistence)
        (frequency * lacunarity)
        (max_value + amplitude)

/-- `Noise::get_fractal`: runs the octave loop from `value = 0.0`,
`amplitude = 1.0`, `frequency = 1.0`, `max_value = 0.0`, then returns
`value / max_value` (an IEEE division, hence `F64`). -/
def Noise.get_fractal (n : Noise) (P : Prim2) (x y : ℚ) (octaves : Nat)
    (persistence lacunarity : ℚ) : F64 :=
  let r := n.fractal_loop P x y persistence lacunarity octaves 0 1 1 0
  F64.fdiv r.1 r.2

/-- `Noise::get_fractal_scaled`: `normalized = (fractal + 1.0) * 0.5`, then
`range_min + normalized * (range_max - range_min)`. -/
def Noise.get_fractal_scaled (n : Noise) (P : Prim2) (x y : ℚ) (octaves : Nat)
    (persistence lacunarity : ℚ) : F64 :=
  let fractal := n.get_fractal P x y octaves persistence lacunarity
  let normalized := (fractal + F64.fin 1) * F64.fin 0.5
  F64.fin n.range_min + normalized * F64.fin (n.range_max - n.range_min)

/-- A concrete primitive used to instantiate the abstract `Prim2` in witnesses
and counterexamples.  It is everywhere `0`, which agrees with the crate's real
`Perlin` primitive at every integer lattice point (gradient noise vanishes
there), in particular at the origin — the only point those concrete
evaluations sample. -/
def P0 : Prim2 := fun _ _ _ => 0

/-- Claim C1: `hash_combine(a, b)` computes exactly the reference mixing
algorithm of spec §4.1 — XOR, wraparound multiplication by `0x517CC1B7`,
XOR with the logical right shift by 16 — and its result is a valid `u32`
(below `2 ^ 32`) for every pair of inputs; as a Lean function it is
deterministic, pure and total by construction. -/
theorem hash_combine_matches_ref (a b : Nat) :
    hash_combine a b = hash_combine_ref a b ∧ hash_combine a b < 2 ^ 32 := by
  refine ⟨rfl, ?_⟩
  have h2lt : (a ^^^ b) * 0x517cc1b7 % 2 ^ 32 < 2 ^ 32 :=
    Nat.mod_lt _ (by norm_num)
  have hslt : ((a ^^^ b) * 0x517cc1b7 % 2 ^ 32) >>> 16 < 2 ^ 32 := by
    refine lt_of_le_of_lt ?_ h2lt
    rw [Nat.shiftRight_eq_div_pow]
    exact Nat.div_le_self _ _
  exact Nat.xor_lt_two_pow h2lt hslt

/-- Claim C2: `NoiseSource::new(S).create(K)` is a generator whose primitive
seed is `hash_combine(S, K)` and whose shaping parameters are the defaults
`scale = 0.008`, `offset = 0`, `range_min = 0`, `range_max = 1`. -/
theorem create_derived_seed_and_defaults (S K : Nat) :
    ((NoiseSource.new S).create K).seed = hash_combine S K ∧
    ((NoiseSource.new S).create K).scale = 0.008 ∧
    ((NoiseSource.new S).create K).offset = 0 ∧
    ((NoiseSource.new S).create K).range_min = 0 ∧
    ((NoiseSource.new S).create K).range_max = 1 :=
  ⟨rfl, rfl, rfl, rfl, rfl⟩

/-- Claim C3: `NoiseSource::new(S).create_salted(K, T)` is the generator
seeded with `hash_combine(S, hash_combine(K, T))`: inner combine takes the
key first and the salt second, outer combine takes the source seed first. -/
theorem create_salted_nesting_order (S K T : Nat) :
    (NoiseSource.new S).create_salted K T =
      Noise.new (hash_combine S (hash_combine K T)) :=
  rfl

/-- Claim C7: `reseed(S2)` mutates only the stored seed (the source is fully
determined by the new seed), subsequent `create` and `create_salted` calls
derive from `S2`, and a generator created before the call keeps producing the
same outputs — it is the value `Noise.new (hash_combine S K)`, holding no
reference back to the source, so its queries only depend on its own fields. -/
theorem reseed_frame_conditions (S S2 K T : Nat) (P : Prim2) (x y : ℚ) :
    (NoiseSource.new S).reseed S2 = NoiseSource.new S2 ∧
    (((NoiseSource.new S).reseed S2).create K).seed = hash_combine S2 K ∧
    (((NoiseSource.new S).reseed S2).create_salted K T).seed =
      hash_combine S2 (hash_combine K T) ∧
    ((NoiseSource.new S).create K).get_normalized P x y =
      (Noise.new (hash_combine S K)).get_normalized P x y :=
  ⟨rfl, rfl, rfl, rfl⟩

/-- Claim C8: `Noise::from_base(base_seed, key)` seeds its primitive with the
wrapping 32-bit sum `(base_seed + key) % 2 ^ 32`, and this derivation differs
from the `hash_combine` avalanche mix used by `NoiseSource::create` (already
at the input pair `(1, 0)`). -/
theorem from_base_wrapping_add (base_seed key : Nat) :
    Noise.from_base base_seed key = Noise.new ((base_seed + key) % 2 ^ 32) ∧
    (Noise.from_base 1 0).seed ≠ ((NoiseSource.new 1).create 0).seed :=
  ⟨rfl, by decide⟩

/-- Claim C5: setting the coordinate offset is exactly coordinate
translation: `with_offset 0` queried at `(x + d, y + d)` agrees with
`with_offset d` queried at `(x, y)`, for every seed, primitive, coordinates
and offset. -/
theorem with_offset_is_translation (seed : Nat) (P : Prim2) (d x y : ℚ) :
    ((Noise.new seed).with_offset 0).get_normalized P (x + d) (y + d) =
      ((Noise.new seed).with_offset d).get_normalized P x y := by
  simp [Noise.get_normalized, Noise.get_raw, Noise.with_offset, Noise.new]

/-- Claim C6: `get_normalized(x, y)` equals `(get_raw(x, y) + 1) * 0.5`, and
lies in `[0, 1]` whenever the primitive stays within its nominal `[-1, 1]`
bound. -/
theorem get_normalized_affine_and_range (n : Noise) (P : Prim2) (x y : ℚ)
    (hb : ∀ s u v, -1 ≤ P s u v ∧ P s u v ≤ 1) :
    n.get_normalized P x y = (n.get_raw P x y + 1) * 0.5 ∧
    0 ≤ n.get_normalized P x y ∧ n.get_normalized P x y ≤ 1 := by
  obtain ⟨h1, h2⟩ :=
    hb n.seed ((x + n.offset) * n.scale) ((y + n.offset) * n.scale)
  refine ⟨rfl, ?_, ?_⟩ <;>
    · simp only [Noise.get_normalized, Noise.get_raw]
      nlinarith

/-- Witness for C6 at the zero primitive, `Noise.new 0` and the origin. -/
theorem get_normalized_affine_and_range_w :
    (Noise.new 0).get_normalized P0 0 0 =
      ((Noise.new 0).get_raw P0 0 0 + 1) * 0.5 ∧
    0 ≤ (Noise.new 0).get_normalized P0 0 0 ∧
    (Noise.new 0).get_normalized P0 0 0 ≤ 1 :=
  get_normalized_affine_and_range (Noise.new 0) P0 0 0
    (fun _ _ _ => by norm_num [P0])

/-- Claim C9: with zero octaves the accumulation loop never runs, so
`get_fractal` evaluates `0.0 / 0.0`, which is NaN, and `get_fractal_scaled`
propagates the NaN through its affine mapping. -/
theorem get_fractal_zero_octaves_nan (n : Noise) (P : Prim2)
    (x y persistence lacunarity : ℚ) :
    n.get_fractal P x y 0 persistence lacunarity = F64.nan ∧
    n.get_fractal_scaled P x y 0 persistence lacunarity = F64.nan := by
  constructor <;>
    simp [Noise.get_fractal, Noise.get_fractal_scaled, Noise.fractal_loop,
      F64.fdiv, HAdd.hAdd, HMul.hMul, Add.add, Mul.mul, F64.add, F64.mul]

/-- Claim C10: with a single octave, amplitude and frequency are both `1`,
the amplitude sum is `1`, and `get_fractal` returns exactly `get_raw(x, y)`
(as a finite value). -/
theorem get_fractal_one_octave_is_raw (n : Noise) (P : Prim2)
    (x y persistence lacunarity : ℚ) :
    n.get_fractal P x y 1 persistence lacunarity =
      F64.fin (n.get_raw P x y) := by
  simp [Noise.get_fractal, Noise.fractal_loop, F64.fdiv]

/-- NaN propagates through `F64` addition on the left. -/
theorem F64.nan_add (b : F64) : F64.nan + b = F64.nan := by cases b <;> rfl

/-- NaN propagates through `F64` addition on the right. -/
theorem F64.add_nan (a : F64) : a + F64.nan = F64.nan := by cases a <;> rfl

/-- NaN propagates through `F64` multiplication on the left. -/
theorem F64.nan_mul (b : F64) : F64.nan * b = F64.nan := by cases b <;> rfl

/-- NaN propagates through `F64` multiplication on the right. -/
theorem F64.mul_nan (a : F64) : a * F64.nan = F64.nan := by cases a <;> rfl

/-- Addition of finite `F64` values is exact rational addition. -/
theorem F64.fin_add (a b : ℚ) : F64.fin a + F64.fin b = F64.fin (a + b) := rfl

/-- Multiplication of finite `F64` values is exact rational multiplication. -/
theorem F64.fin_mul (a b : ℚ) : F64.fin a * F64.fin b = F64.fin (a * b) := rfl

/-- Octave-loop invariant: with a primitive within `[-1, 1]`, a nonnegative
persistence and a nonnegative starting amplitude, the amplitude sum only
grows (by at least the starting amplitude once the loop runs at least once),
and the accumulated value moves by at most the growth of the amplitude sum. -/
theorem fractal_loop_bounds (n : Noise) (P : Prim2) (x y p l : ℚ)
    (hb : ∀ s u v, -1 ≤ P s u v ∧ P s u v ≤ 1) (hp : 0 ≤ p) :
    ∀ (k : Nat) (value amplitude frequency max_value : ℚ), 0 ≤ amplitude →
      max_value ≤ (n.fractal_loop P x y p l k value amplitude frequency max_value).2 ∧
      (1 ≤ k → max_value + amplitude ≤
        (n.fractal_loop P x y p l k value amplitude frequency max_value).2) ∧
      |(n.fractal_loop P x y p l k value amplitude frequency max_value).1 - value| ≤
        (n.fractal_loop P x y p l k value amplitude frequency max_value).2 - max_value := by
  intro k
  induction k with
  | zero =>
      intro value amplitude frequency max_value _
      simp [Noise.fractal_loop]
  | succ k ih =>
      intro value amplitude frequency max_value ha
      have hrawabs : |n.get_raw P (x * frequency) (y * frequency)| ≤ 1 := by
        obtain ⟨hr1, hr2⟩ := hb n.seed ((x * frequency + n.offset) * n.scale)
          ((y * frequency + n.offset) * n.scale)
        rw [Noise.get_raw]
        exact abs_le.mpr ⟨hr1, hr2⟩
      have habs : |n.get_raw P (x * frequency) (y * frequency) * amplitude| ≤ amplitude := by
        rw [abs_mul, abs_of_nonneg ha]
        nlinarith [abs_nonneg (n.get_raw P (x * frequency) (y * frequency))]
      obtain ⟨ihm, -, ihv⟩ :=
        ih (value + n.get_raw P (x * frequency) (y * frequency) * amplitude)
          (amplitude * p) (frequency * l) (max_value + amplitude) (mul_nonneg ha hp)
      simp only [Noise.fractal_loop]
      refine ⟨by linarith, fun _ => ihm, ?_⟩
      have htri := abs_sub_le
        ((n.fractal_loop P x y p l k
            (value + n.get_raw P (x * frequency) (y * frequency) * amplitude)
            (amplitude * p) (frequency * l) (max_value + amplitude)).1)
        (value + n.get_raw P (x * frequency) (y * frequency) * amplitude) value
      have hstep : |value + n.get_raw P (x * frequency) (y * frequency) * amplitude - value|
          ≤ amplitude := by
        rw [add_sub_cancel_left]
        exact habs
      linarith

/-- Claim C4 (amended): `get_fractal_scaled` is exactly the affine image
`range_min + n * (range_max - range_min)` of
`n = (get_fractal + 1) * 0.5`, and — provided the primitive stays within its
nominal `[-1, 1]` bound, `octaves ≥ 1`, `persistence ≥ 0` and
`range_min ≤ range_max` — the result is a finite value inside
`[range_min, range_max]`. -/
theorem get_fractal_scaled_formula_and_range (n : Noise) (P : Prim2)
    (x y persistence lacunarity : ℚ) (octaves : Nat)
    (hb : ∀ s u v, -1 ≤ P s u v ∧ P s u v ≤ 1)
    (ho : 1 ≤ octaves) (hp : 0 ≤ persistence)
    (hr : n.range_min ≤ n.range_max) :
    n.get_fractal_scaled P x y octaves persistence lacunarity =
      F64.fin n.range_min +
        (n.get_fractal P x y octaves persistence lacunarity + F64.fin 1) *
          F64.fin 0.5 * F64.fin (n.range_max - n.range_min) ∧
    F64.inRange n.range_min n.range_max
      (n.get_fractal_scaled P x y octaves persistence lacunarity) = true := by
  obtain ⟨-, hm, hv⟩ :=
    fractal_loop_bounds n P x y persistence lacunarity hb hp octaves 0 1 1 0 (by norm_num)
  have hm1 : (1 : ℚ) ≤ (n.fractal_loop P x y persistence lacunarity octaves 0 1 1 0).2 := by
    have := hm ho
    linarith
  have hpos : (0 : ℚ) < (n.fractal_loop P x y persistence lacunarity octaves 0 1 1 0).2 := by
    linarith
  have hvabs : |(n.fractal_loop P x y persistence lacunarity octaves 0 1 1 0).1| ≤
      (n.fractal_loop P x y persistence lacunarity octaves 0 1 1 0).2 := by
    have := hv
    rw [sub_zero, sub_zero] at this
    exact this
  have hfr : n.get_fractal P x y octaves persistence lacunarity =
      F64.fin ((n.fractal_loop P x y persistence lacunarity octaves 0 1 1 0).1 /
        (n.fractal_loop P x y persistence lacunarity octaves 0 1 1 0).2) := by
    simp only [Noise.get_fractal, F64.fdiv, if_neg (ne_of_gt hpos)]
  have hqabs : |(n.fractal_loop P x y persistence lacunarity octaves 0 1 1 0).1 /
      (n.fractal_loop P x y persistence lacunarity octaves 0 1 1 0).2| ≤ 1 := by
    rw [abs_div, abs_of_pos hpos]
    exact (div_le_one hpos).mpr hvabs
  obtain ⟨hq1, hq2⟩ := abs_le.mp hqabs
  have hscaled : n.get_fractal_scaled P x y octaves persistence lacunarity =
      F64.fin (n.range_min +
        ((n.fractal_loop P x y persistence lacunarity octaves 0 1 1 0).1 /
          (n.fractal_loop P x y persistence lacunarity octaves 0 1 1 0).2 + 1) * 0.5 *
        (n.range_max - n.range_min)) := by
    simp only [Noise.get_fractal_scaled, hfr, F64.fin_add, F64.fin_mul]
  refine ⟨by simp only [Noise.get_fractal_scaled], ?_⟩
  rw [hscaled]
  simp only [F64.inRange, Bool.and_eq_true, decide_eq_true_eq]
  constructor
  · nlinarith
  · nlinarith

/-- Witness for the amended C4 at the zero primitive, `Noise.new 0` (range
`[0, 1]`), the origin, one octave, persistence `1/2`, lacunarity `2`. -/
theorem get_fractal_scaled_formula_and_range_w :
    F64.inRange (Noise.new 0).range_min (Noise.new 0).range_max
      ((Noise.new 0).get_fractal_scaled P0 0 0 1 (1/2) 2) = true :=
  (get_fractal_scaled_formula_and_range (Noise.new 0) P0 0 0 (1/2) 2 1
    (fun _ _ _ => by norm_num [P0]) (by norm_num) (by norm_num)
    (by norm_num [Noise.new])).2

/-- Counterexample to claim C4 as stated: at persistence `-1` with two
octaves, the amplitude sum is `1 + (-1) = 0` while the accumulated value is
`0` (the primitive — like the crate's real Perlin at the only sampled point,
the origin — returns `0`, and it lies within the nominal `[-1, 1]` bound), so
`get_fractal` is `0/0 = NaN` and `get_fractal_scaled` returns NaN, which is
not in the generator's range `[0, 1]`. -/
theorem get_fractal_scaled_range_cex :
    (Noise.new 0).get_fractal_scaled P0 0 0 2 (-1) 2 = F64.nan ∧
    F64.inRange (Noise.new 0).range_min (Noise.new 0).range_max
      ((Noise.new 0).get_fractal_scaled P0 0 0 2 (-1) 2) = false := by
  have h1 : (Noise.new 0).get_fractal_scaled P0 0 0 2 (-1) 2 = F64.nan := by
    norm_num [Noise.get_fractal_scaled, Noise.get_fractal, Noise.fractal_loop,
      Noise.get_raw, P0, F64.fdiv, F64.nan_add, F64.add_nan, F64.nan_mul, F64.mul_nan]
  exact ⟨h1, by rw [h1]; rfl⟩
